import Mathlib

/-!
Verification of the ghostpad local LLM completion subsystem.

This file gives a shallow embedding, in Lean, of the parts of the program
that the specification talks about:

* `src/llm/huggingface.rs` — model-reference parsing, alias resolution
  against a registry file listing, and the content-addressed artifact
  cache (`download_with_progress`, `is_downloaded`, `get_path`,
  sidecar verification).  Filesystem effects are modelled as an explicit
  map from path strings to optional byte lists, and the download body is
  modelled as the ordered list of primitive filesystem operations it
  performs, so that interruption at any point is expressible as a prefix
  of that operation list.
* `src/llm/mod.rs` — the `LlmManager` configuration / loaded-model slot
  (`update_config`, `ensure_model_loaded`, `complete`, `unload_model`).
* `src/app/completion.rs` and `src/app/window.rs` — the completion
  context formatting, the FIM token clamp, the generation-stamped result
  delivery on the host thread, and the debounce scheduler.

External capabilities (SHA-256, JSON (de)serialisation of the sidecar,
the HTTP response, the registry listing and the inference engine) are
parameters of the model, never axioms.
-/

namespace Ghostpad

/-! ### String helpers with Rust `std` semantics -/

/-- Rust `char::is_whitespace` (the Unicode `White_Space` property). -/
def rustIsWhitespace (c : Char) : Bool :=
  c ∈ ['\t', '\n', '\x0b', '\x0c', '\r', ' ', '\u0085', '\u00a0',
       '\u1680', '\u2000', '\u2001', '\u2002', '\u2003', '\u2004',
       '\u2005', '\u2006', '\u2007', '\u2008', '\u2009', '\u200a',
       '\u2028', '\u2029', '\u202f', '\u205f', '\u3000']

/-- Drop the matching characters from both ends, as Rust `str::trim_matches`
(and `str::trim` for the whitespace predicate) does. -/
def trimPred (p : Char → Bool) (cs : List Char) : List Char :=
  ((cs.dropWhile p).reverse.dropWhile p).reverse

/-- Rust `str::trim`. -/
def rustTrim (s : String) : String :=
  ⟨trimPred rustIsWhitespace s.data⟩

/-- Rust `str::trim_end`. -/
def rustTrimEnd (s : String) : String :=
  ⟨(s.data.reverse.dropWhile rustIsWhitespace).reverse⟩

/-- Rust `str::split_once`: split at the first occurrence of the
character, returning the parts before and after it. -/
def splitOnceAux (c : Char) : List Char → Option (List Char × List Char)
  | [] => none
  | x :: xs =>
    if x = c then some ([], xs)
    else (splitOnceAux c xs).map (fun p => (x :: p.1, p.2))

/-- Rust `str::split_once` lifted to `String`. -/
def splitOnce (s : String) (c : Char) : Option (String × String) :=
  (splitOnceAux c s.data).map (fun p => (⟨p.1⟩, ⟨p.2⟩))

/-- Does `s` start with the segment `pat`?  (Rust `str::starts_with`.) -/
def startsWithSeg : List Char → List Char → Bool
  | _, [] => true
  | [], _ :: _ => false
  | c :: cs, p :: ps => c = p && startsWithSeg cs ps

/-- Does `s` contain `pat` as a contiguous substring?
(Rust `str::contains` for a string pattern.) -/
def hasInfixSeg : List Char → List Char → Bool
  | [], pat => pat.isEmpty
  | c :: cs, pat => startsWithSeg (c :: cs) pat || hasInfixSeg cs pat

/-- Rust `str::contains` with a `&str` pattern. -/
def containsSubstr (s pat : String) : Bool :=
  hasInfixSeg s.data pat.data

/-- Rust `str::to_lowercase`, restricted to the ASCII range (the file
names the program compares are ASCII). -/
def strLower (s : String) : String :=
  ⟨s.data.map Char.toLower⟩

/-- Rust `str::ends_with` with a `&str` pattern. -/
def endsWithStr (s suffixStr : String) : Bool :=
  suffixStr.data.isSuffixOf s.data

/-- Rust `str::split` with a `char` pattern (empty pieces preserved;
splitting the empty string yields one empty piece). -/
def splitOnChar (c : Char) : List Char → List (List Char)
  | [] => [[]]
  | x :: xs =>
    let rest := splitOnChar c xs
    if x = c then [] :: rest
    else
      match rest with
      | [] => [[x]]
      | r :: rs => (x :: r) :: rs

/-- `splitOnChar` lifted to `String`. -/
def splitOnCharStr (c : Char) (s : String) : List String :=
  (splitOnChar c s.data).map (fun cs => ⟨cs⟩)

/-- Join path segments with `/` (Rust `Vec::join("/")`). -/
def joinSegs : List String → String
  | [] => ""
  | [s] => s
  | s :: rest => s ++ "/" ++ joinSegs rest

/-- Stable insertion of a string into a list sorted by ascending length:
the new element goes before the first element that is not strictly
shorter, so elements of equal length keep their original order. -/
def insertByLen (x : String) : List String → List String
  | [] => [x]
  | y :: ys => if y.length < x.length then y :: insertByLen x ys else x :: y :: ys

/-- Stable sort by ascending name length.  Rust `sort_by_key` is a stable
sort, and a stable sort's output is determined by the key order together
with stability, so this insertion sort computes exactly the list the
source's `candidates.sort_by_key(|name| name.len())` produces. -/
def sortByLen : List String → List String
  | [] => []
  | x :: xs => insertByLen x (sortByLen xs)

/-! ### `HuggingFaceModel` — reference parsing (`src/llm/huggingface.rs`) -/

/-- The parsed model reference `{ repo, revision, file }`. -/
structure HuggingFaceModel where
  repo : String
  revision : String
  file : String
deriving DecidableEq, Repr

/-- `HuggingFaceModel::parse`: accepts `repo[:file]`, `repo@revision[:file]`
and `repo/path/to/file`; rejects blank input and references without an
`owner/repo` pair or without any file segment. -/
def parse (reference : String) : Except String HuggingFaceModel :=
  if (rustTrim reference).data.isEmpty then
    .error "Empty Hugging Face reference"
  else
    let lr : String × Option String :=
      match splitOnce reference ':' with
      | some (repoPart, filePart) => (repoPart, some filePart)
      | none => (reference, none)
    let rrev : String × String :=
      match splitOnce lr.1 '@' with
      | some (repoStr, rev) => (repoStr, rev)
      | none => (lr.1, "main")
    let repoParts := splitOnCharStr '/' rrev.1
    if repoParts.length < 2 then
      .error "Invalid HF repo format: expected owner/repo"
    else
      let repo := (repoParts.get? 0).getD "" ++ "/" ++ (repoParts.get? 1).getD ""
      let fileCandidate0 : Option String :=
        match lr.2 with
        | some part =>
          let t : String := ⟨trimPred (fun c => c = '/') part.data⟩
          if t.data.isEmpty then none else some t
        | none => none
      let fileCandidate : Option String :=
        if fileCandidate0.isNone ∧ repoParts.length > 2 then
          some (joinSegs (repoParts.drop 2))
        else fileCandidate0
      match fileCandidate with
      | none => .error "Missing filename"
      | some f => .ok { repo := repo, revision := rrev.2, file := f }

/-- `HuggingFaceModel::filename`: the final `/`-separated segment of the
`file` field. -/
def filenameOf (file : String) : String :=
  (((splitOnCharStr '/' file)).getLast?).getD file

/-- `HuggingFaceModel::needs_filename_resolution`: the `file` field is an
alias when it has no `/` and no `.`. -/
def needsFilenameResolution (file : String) : Bool :=
  !file.data.contains '/' && !file.data.contains '.'

/-- The filtered candidate list of `resolve_hf_alias`: listing names that
contain the alias case-insensitively and end in `.gguf`. -/
def aliasCandidates (siblings : List String) (aliasStr : String) : List String :=
  (siblings.filter
    (fun name => containsSubstr (strLower name) (strLower aliasStr))).filter
    (fun name => endsWithStr (strLower name) ".gguf")

/-- `resolve_hf_alias` minus the network call: given the registry listing
(the `rfilename`s of the repo's siblings), filter to candidates, fail if
none, prefer an exact `{alias}.gguf` suffix match, otherwise the shortest
candidate (stable sort by length, first element). -/
def resolve_hf_alias (siblings : List String) (aliasStr : String) :
    Except String String :=
  let aliasLower := strLower aliasStr
  let candidates := aliasCandidates siblings aliasStr
  if candidates.isEmpty then
    .error ("Could not find a GGUF file containing " ++ aliasStr)
  else
    let suffixPat := aliasLower ++ ".gguf"
    match candidates.find? (fun name => endsWithStr (strLower name) suffixPat) with
    | some exact => .ok exact
    | none => .ok ((sortByLen candidates).headI)

/-- `HuggingFaceModel::materialize_filename`: resolve the alias via the
registry listing for the reference's repo; a concrete `file` is kept. -/
def materialize_filename (listings : String → List String)
    (m : HuggingFaceModel) : Except String HuggingFaceModel :=
  if !needsFilenameResolution m.file then .ok m
  else
    match resolve_hf_alias (listings m.repo) m.file with
    | .error e => .error e
    | .ok resolved => .ok { m with file := resolved }

/-! ### Filesystem and environment model for the `ModelDownloader` -/

/-- The local filesystem, as a map from path strings to file contents
(byte lists); `none` means the path does not exist. -/
structure FileSys where
  files : String → Option (List Nat)

/-- The sidecar metadata record (`DownloadMetadata` in the source):
`{ "sha256": ..., "etag": ... }`. -/
structure DownloadMetadata where
  sha256 : String
  etag : Option String
deriving DecidableEq, Repr

/-- External capabilities the downloader uses: the SHA-256 digest of a
byte string (rendered lowercase hex by the source), and the JSON
(de)serialisation of the sidecar record. -/
structure HashEnv where
  sha : List Nat → String
  parseMeta : List Nat → Option DownloadMetadata
  encodeMeta : DownloadMetadata → List Nat

/-- `PathBuf::join` for the flat layout the downloader uses. -/
def joinPath (dir name : String) : String :=
  dir ++ "/" ++ name

/-- `ModelDownloader::metadata_path`: `{models_dir}/{filename}.meta.json`. -/
def metadataPath (dir filename : String) : String :=
  joinPath dir (filename ++ ".meta.json")

/-- Join name pieces with `.` (used by `fileStem`). -/
def joinDotted : List (List Char) → String
  | [] => ""
  | [s] => ⟨s⟩
  | s :: rest => (⟨s⟩ : String) ++ "." ++ joinDotted rest

/-- Rust `Path::file_stem` on a plain file name: the part before the last
`.`, except that a leading `.` alone does not start an extension. -/
def fileStem (name : String) : String :=
  let hasLeadingDot := startsWithSeg name.data ['.']
  let body : String := if hasLeadingDot then ⟨name.data.drop 1⟩ else name
  let parts := splitOnChar '.' body.data
  if parts.length ≤ 1 then name
  else
    (if hasLeadingDot then "." else "") ++
      joinDotted (parts.dropLast)

/-- Rust `Path::with_extension` on the final path component: replace the
current extension (if any) by the given one. -/
def withExtension (name ext : String) : String :=
  fileStem name ++ "." ++ ext

/-- `verify_existing_file` / `verify_existing_file_internal`: `Ok false`
when the artifact or its sidecar is missing, an error when the sidecar
does not parse, otherwise whether the freshly computed hash of the
artifact bytes equals the hash recorded in the sidecar. -/
def verify_existing_file (env : HashEnv) (fs : FileSys)
    (path metaPath : String) : Except String Bool :=
  match fs.files path, fs.files metaPath with
  | some content, some metaBytes =>
    match env.parseMeta metaBytes with
    | none => .error "Invalid metadata json"
    | some meta => .ok (env.sha content == meta.sha256)
  | _, _ => .ok false

/-- `ModelDownloader::is_downloaded`: resolve the filename, then accept
only a verified file (`Ok(true)`); resolution failure, a missing or
unreadable sidecar, and a hash mismatch all count as not downloaded. -/
def is_downloaded (env : HashEnv) (listings : String → List String)
    (fs : FileSys) (modelsDir : String) (m : HuggingFaceModel) : Bool :=
  match materialize_filename listings m with
  | .error _ => false
  | .ok resolved =>
    let filename := filenameOf resolved.file
    match verify_existing_file env fs (joinPath modelsDir filename)
        (metadataPath modelsDir filename) with
    | .ok true => true
    | _ => false

/-- `ModelDownloader::get_path`: like `is_downloaded` but returning the
artifact path on success. -/
def get_path (env : HashEnv) (listings : String → List String)
    (fs : FileSys) (modelsDir : String) (m : HuggingFaceModel) :
    Option String :=
  match materialize_filename listings m with
  | .error _ => none
  | .ok resolved =>
    let filename := filenameOf resolved.file
    match verify_existing_file env fs (joinPath modelsDir filename)
        (metadataPath modelsDir filename) with
    | .ok true => some (joinPath modelsDir filename)
    | _ => none

/-! ### `download_with_progress` as a trace of filesystem operations -/

/-- The primitive filesystem operations the download body performs, in
source order.  Interrupting the process after `k` operations leaves the
filesystem at `applyOps fs (ops.take k)`. -/
inductive FsOp
  | create (p : String)
  | append (p : String) (bytes : List Nat)
  | remove (p : String)
  | rename (src dst : String)
  | write (p : String) (bytes : List Nat)
deriving DecidableEq, Repr

/-- Apply one operation.  `create` is `File::create` (truncating),
`append` is `write_all` on the open handle, `remove` is
`fs::remove_file`, `rename` is `fs::rename` (replacing the destination;
a path renamed onto itself is kept), `write` is `fs::write`. -/
def applyOp (fs : FileSys) : FsOp → FileSys
  | .create p => ⟨fun q => if q = p then some [] else fs.files q⟩
  | .append p bytes =>
    ⟨fun q => if q = p then some ((fs.files p).getD [] ++ bytes) else fs.files q⟩
  | .remove p => ⟨fun q => if q = p then none else fs.files q⟩
  | .rename src dst =>
    ⟨fun q => if q = dst then fs.files src
      else if q = src then none else fs.files q⟩
  | .write p bytes => ⟨fun q => if q = p then some bytes else fs.files q⟩

/-- Apply a list of operations in order. -/
def applyOps (fs : FileSys) (ops : List FsOp) : FileSys :=
  ops.foldl applyOp fs

/-- Does an operation touch the file at path `p`? -/
def touches (op : FsOp) (p : String) : Bool :=
  match op with
  | .create q => decide (q = p)
  | .append q _ => decide (q = p)
  | .remove q => decide (q = p)
  | .rename src dst => decide (src = p) || decide (dst = p)
  | .write q _ => decide (q = p)

/-- The relevant parts of the registry's HTTP response: the two hash
headers (`x-linked-etag`, `x-xet-hash`), the `content-length` header and
the streamed body, chunked as the 64 KiB reads deliver it. -/
structure HttpResponse where
  linkedEtag : Option String
  xetHash : Option String
  contentLength : Option Nat
  chunks : List (List Nat)

/-- The expected hash announced by the server: the first of
`x-linked-etag` / `x-xet-hash` that is present, with surrounding quotes
trimmed and lowercased (`trim_matches('"').to_lowercase()`). -/
def expectedHashOf (r : HttpResponse) : Option String :=
  let raw : Option String :=
    match r.linkedEtag with
    | some v => some v
    | none => r.xetHash
  raw.map (fun v => strLower ⟨trimPred (fun c => c = '"') v.data⟩)

/-- The body of `download_with_progress` after the filename has been
resolved: verify (and possibly clean up) an existing file at the output
path, then transfer to the temp path, hash-check, atomically rename and
write the sidecar.  Returns the call's result together with the ordered
list of filesystem operations it performed. -/
def download_resolved (env : HashEnv) (fs0 : FileSys) (modelsDir : String)
    (filename : String) (resp : HttpResponse) :
    Except String String × List FsOp :=
  let outputPath := joinPath modelsDir filename
  let metaPath := metadataPath modelsDir filename
  let cleanup : Option (List FsOp) :=
    if (fs0.files outputPath).isSome then
      match verify_existing_file env fs0 outputPath metaPath with
      | .ok true => none
      | _ => some [FsOp.remove outputPath, FsOp.remove metaPath]
    else some []
  match cleanup with
  | none => (.ok outputPath, [])
  | some cleanupOps =>
    let tempPath := joinPath modelsDir (withExtension filename "tmp")
    let expected := expectedHashOf resp
    let body := resp.chunks.flatten
    let hashHex := env.sha body
    let transferOps := FsOp.create tempPath :: resp.chunks.map (FsOp.append tempPath)
    let successOps := cleanupOps ++ transferOps ++
      [FsOp.rename tempPath outputPath,
       FsOp.write metaPath (env.encodeMeta ⟨hashHex, expected⟩)]
    match expected with
    | some e =>
      if e ≠ hashHex then
        (.error ("Hash mismatch: expected " ++ e ++ ", got " ++ hashHex),
         cleanupOps ++ transferOps ++ [FsOp.remove tempPath])
      else (.ok outputPath, successOps)
    | none => (.ok outputPath, successOps)

/-- `ModelDownloader::download_with_progress`: resolve the filename, then
run the download body. -/
def download_with_progress (env : HashEnv) (listings : String → List String)
    (fs0 : FileSys) (modelsDir : String) (m : HuggingFaceModel)
    (resp : HttpResponse) : Except String String × List FsOp :=
  match materialize_filename listings m with
  | .error e => (.error e, [])
  | .ok resolved =>
    download_resolved env fs0 modelsDir (filenameOf resolved.file) resp

/-! ### `LlmManager` (`src/llm/mod.rs`) -/

/-- `ProviderKind`. -/
inductive ProviderKind
  | openAI
  | gemini
  | local
deriving DecidableEq, Repr

/-- `LlmSettings` — the configuration snapshot the manager owns.
`max_completion_tokens` is the general token ceiling the completion
worker reads from `manager.config()`. -/
structure LlmSettings where
  provider : ProviderKind
  endpoint : String
  override_model_path : Bool
  local_model_path : String
  preferred_device : Option String
  force_cpu_only : Bool
  default_gpu_model : String
  default_cpu_model : String
  max_completion_tokens : Nat
deriving DecidableEq, Repr

/-- `LoadedModel` — the in-memory engine handle: the path it was loaded
from and the inference capability it answers `complete` with (the
token-decoding internals are an external capability, not remodelled). -/
structure LoadedModel where
  source_path : String
  completeFn : String → Nat → Except String String

/-- `LlmManager` — configuration, models directory, backend availability
and the mutex-guarded loaded-model slot (the mutex is modelled by
explicit state passing; all mutation goes through these functions). -/
structure LlmManager where
  config : LlmSettings
  modelsDir : String
  llamacppAvailable : Bool
  loadedModel : Option LoadedModel

/-- The engine-side environment `ensure_model_loaded` needs: the hash and
registry environments for downloading, the HTTP response a download of a
given reference would stream, and `LlamaCpp::load_model`. -/
structure EngineEnv where
  hashEnv : HashEnv
  listings : String → List String
  resp : HuggingFaceModel → HttpResponse
  load : String → Option Nat → Except String LoadedModel

/-- `LlmManager::update_config`: replace the configuration snapshot. -/
def update_config (m : LlmManager) (c : LlmSettings) : LlmManager :=
  { m with config := c }

/-- `LlmManager::unload_model`: empty the loaded-model slot. -/
def unload_model (m : LlmManager) : LlmManager :=
  { m with loadedModel := none }

/-- `LlmManager::is_model_downloaded`. -/
def is_model_downloaded (E : EngineEnv) (fs : FileSys) (m : LlmManager)
    (modelRef : String) : Bool :=
  match parse modelRef with
  | .ok model => is_downloaded E.hashEnv E.listings fs m.modelsDir model
  | .error _ => false

/-- `LlmManager::download_model`. -/
def download_model (E : EngineEnv) (fs : FileSys) (m : LlmManager)
    (modelRef : String) : Except String (String × FileSys) :=
  match parse modelRef with
  | .error e => .error e
  | .ok model =>
    let r := download_with_progress E.hashEnv E.listings fs m.modelsDir model
      (E.resp model)
    match r.1 with
    | .error e => .error e
    | .ok p => .ok (p, applyOps fs r.2)

/-- `LlmManager::get_model_path`. -/
def get_model_path (E : EngineEnv) (fs : FileSys) (m : LlmManager)
    (modelRef : String) : Option String :=
  match parse modelRef with
  | .ok model => get_path E.hashEnv E.listings fs m.modelsDir model
  | .error _ => none

/-- `LlmManager::ensure_model_loaded`: no-op when a model is already in
the slot; otherwise pick the override path or the device-class default
reference (downloading it if needed), choose the GPU layer count, load,
and store the engine in the slot.  Returns the updated manager and
filesystem. -/
def ensure_model_loaded (E : EngineEnv) (fs : FileSys) (m : LlmManager) :
    Except String (LlmManager × FileSys) :=
  if !m.llamacppAvailable then .error "llama.cpp not available"
  else if m.loadedModel.isSome then .ok (m, fs)
  else
    let pathAndFs : Except String (String × FileSys) :=
      if m.config.override_model_path ∧ ¬ m.config.local_model_path.data.isEmpty
      then .ok (m.config.local_model_path, fs)
      else
        let modelRef := if m.config.force_cpu_only then m.config.default_cpu_model
          else m.config.default_gpu_model
        if !is_model_downloaded E fs m modelRef then
          download_model E fs m modelRef
        else
          match get_model_path E fs m modelRef with
          | some p => .ok (p, fs)
          | none => .error "Model path not found"
    match pathAndFs with
    | .error e => .error e
    | .ok (modelPath, fs1) =>
      let nGpuLayers : Option Nat :=
        if m.config.force_cpu_only then some 0 else some 999
      match E.load modelPath nGpuLayers with
      | .error e => .error e
      | .ok loaded => .ok ({ m with loadedModel := some loaded }, fs1)

/-- `LlmManager::complete`: ensure the model is loaded, then run the
inference capability of whatever sits in the slot. -/
def manager_complete (E : EngineEnv) (fs : FileSys) (m : LlmManager)
    (prompt : String) (maxTokens : Nat) :
    Except String (String × LlmManager × FileSys) :=
  match ensure_model_loaded E fs m with
  | .error e => .error e
  | .ok (m1, fs1) =>
    match m1.loadedModel with
    | none => .error "Model not loaded"
    | some model =>
      match model.completeFn prompt maxTokens with
      | .error e => .error e
      | .ok text => .ok (text, m1, fs1)

/-! ### Completion context and FIM token clamp
(`src/app/window.rs` `completion_context`,
`src/app/completion.rs` `request_llm_completion_with_generation`) -/

/-- `completion_context` after the prefix/suffix text has been read from
the buffer (capped at 2000/1000 characters around the cursor by the
caller): prefix-only at end of document, otherwise the Qwen
fill-in-the-middle format. -/
def completion_context (prefixText suffixText : String) : String :=
  if suffixText.data.isEmpty then prefixText
  else "<|fim_prefix|>" ++ prefixText ++ "<|fim_suffix|>" ++ suffixText
    ++ "<|fim_middle|>"

/-- The worker's FIM detection:
`context.contains("<｜fim▁begin｜>")` (completion.rs line 72). -/
def isFimContext (context : String) : Bool :=
  containsSubstr context "<｜fim▁begin｜>"

/-- The token budget the worker passes to `manager.complete`:
`min(50, max_completion_tokens)` when the context was detected as FIM,
otherwise `max_completion_tokens` (completion.rs lines 97-103). -/
def chosenMaxTokens (context : String) (maxCompletionTokens : Nat) : Nat :=
  if isFimContext context then min 50 maxCompletionTokens
  else maxCompletionTokens

/-! ### Generation-stamped result delivery on the host thread
(`src/app/completion.rs` lines 114-202) -/

/-- `CompletionTrigger`. -/
inductive CompletionTrigger
  | manual
  | automatic
deriving DecidableEq, Repr

deriving instance DecidableEq for Except

/-- One worker result arriving on the host's result channel, stamped with
the generation the request was issued under. -/
structure Delivery where
  trigger : CompletionTrigger
  generation : Nat
  isFim : Bool
  result : Except String String
deriving DecidableEq, Repr

/-- The host-side state the delivery handler touches: the generation
counter, the two in-flight flags, the ghost text, the status label and
the toast list. -/
structure HostState where
  completion_generation : Nat
  manual_inflight : Bool
  auto_running : Bool
  ghost_text : Option String
  status : String
  toasts : List String
deriving DecidableEq, Repr

/-- The unconditional first step of the receive handler: clear the
in-flight flag belonging to the request's trigger. -/
def clearInflight (trigger : CompletionTrigger) (st : HostState) : HostState :=
  if trigger = .manual then { st with manual_inflight := false }
  else { st with auto_running := false }

/-- The accepted-result branch of the receive handler: splice ghost text
or set the status / raise a toast, exactly as the source does. -/
def applyResult (d : Delivery) (st : HostState) : HostState :=
  match d.result with
  | .ok completionText =>
    let text := if d.isFim then rustTrimEnd completionText else completionText
    if !(rustTrim text).data.isEmpty then
      { st with ghost_text := some text,
                status := "Suggestion ready (Tab to accept, Esc to dismiss)" }
    else { st with status := "" }
  | .error err =>
    if containsSubstr err "Request cancelled" then { st with status := "" }
    else
      let st1 := { st with status := "Completion error: " ++ err }
      if d.trigger = .manual then
        { st1 with toasts := st1.toasts ++ ["Completion failed: " ++ err] }
      else st1

/-- The host's handler for one received result: clear the in-flight flag
unconditionally, then drop the result if its generation is stale, else
apply it. -/
def deliverResult (d : Delivery) (st : HostState) : HostState :=
  if d.generation ≠ (clearInflight d.trigger st).completion_generation then
    clearInflight d.trigger st
  else applyResult d (clearInflight d.trigger st)

/-- Deliver a batch of worker results in an arbitrary completion order. -/
def runDeliveries (st : HostState) (ds : List Delivery) : HostState :=
  ds.foldl (fun s d => deliverResult d s) st

/-! ### Debounce scheduler (`src/app/window.rs` 1409-1478) -/

/-- The scheduler state: the start-of-streak timestamp
(`last_completion_schedule`) and the pending debounce timer's absolute
deadline (`completion_debounce`), in milliseconds. -/
structure SchedState where
  lastSchedule : Option Nat
  pending : Option Nat
deriving DecidableEq, Repr

/-- `schedule_auto_completion` at wall-clock time `now` (manual request
not in flight): compute `should_force` from the stored timestamp, store
`now` as streak start when no timer is pending or when forcing, cancel
the old timer and arm a new one with delay 0 (forced) or 100 ms. -/
def schedule_auto_completion (now : Nat) (s : SchedState) : SchedState :=
  let shouldForce :=
    match s.lastSchedule with
    | some first => decide (500 ≤ now - first)
    | none => false
  let lastSchedule :=
    if s.pending.isNone || shouldForce then some now else s.lastSchedule
  let delay := if shouldForce then 0 else 100
  { lastSchedule := lastSchedule, pending := some (now + delay) }

/-- `handle_text_change`: cancel the pending debounce timer first, then
(after dismissing ghost text and bumping the generation) call
`schedule_auto_completion`. -/
def handle_text_change (now : Nat) (s : SchedState) : SchedState :=
  schedule_auto_completion now { s with pending := none }

/-- Run a sequence of text-change trigger times through the scheduler,
firing a pending timer whose deadline precedes the next trigger (the
timer callback clears both the timer slot and the streak timestamp and
issues the automatic completion request).  Returns the times at which
automatic requests fired during the trigger sequence, together with the
final scheduler state (whose `pending` deadline, if any, is when the
trailing request would fire). -/
def runTriggers : List Nat → SchedState → List Nat × SchedState
  | [], s => ([], s)
  | t :: rest, s =>
    match s.pending with
    | some d =>
      if d < t then
        let fired := runTriggers rest (handle_text_change t ⟨none, none⟩)
        (d :: fired.1, fired.2)
      else runTriggers rest (handle_text_change t s)
    | none => runTriggers rest (handle_text_change t s)

/-- An arithmetic trigger train: `count` triggers starting at `start`,
spaced `gap` ms apart. -/
def triggerTrain (start gap count : Nat) : List Nat :=
  (List.range count).map (fun i => start + gap * i)

/-! ### Concrete fixtures used by the witness theorems -/

/-- A hash environment over tiny concrete byte strings. -/
def wHashEnv : HashEnv :=
  ⟨fun bs => if bs = [7] then "h1" else if bs = [0, 1] then "h2" else "hx",
   fun bs => if bs = [1] then some ⟨"h1", none⟩ else none,
   fun _ => [1]⟩

/-- A registry whose every repo lists one quantisation file. -/
def wListings : String → List String := fun _ => ["bb-Q4.gguf"]

/-- A filesystem holding one verified artifact `d/f.gguf`. -/
def wFs : FileSys :=
  ⟨fun q => if q = "d/f.gguf" then some [7]
    else if q = "d/f.gguf.meta.json" then some [1] else none⟩

/-- A concrete parsed reference to `d/f.gguf`. -/
def wModel : HuggingFaceModel := ⟨"o/r", "main", "f.gguf"⟩

/-- A loaded engine handle echoing its prompt. -/
def wLoaded : LoadedModel := ⟨"d/f.gguf", fun p _ => .ok ("done:" ++ p)⟩

/-- A local-provider configuration. -/
def wSettings : LlmSettings := ⟨.local, "", false, "", none, false, "g", "c", 200⟩

/-- A different configuration (override path, CPU-only, other defaults). -/
def wSettings2 : LlmSettings :=
  ⟨.local, "", true, "/override.gguf", none, true, "g2", "c2", 10⟩

/-- A manager whose slot already holds `wLoaded`. -/
def wManager : LlmManager := ⟨wSettings, "d", true, some wLoaded⟩

/-- An engine environment whose loader would hand back a fresh handle. -/
def wEngineEnv : EngineEnv :=
  ⟨wHashEnv, wListings, fun _ => ⟨none, none, none, []⟩,
   fun p _ => .ok ⟨p, fun _ _ => .ok "new"⟩⟩

/-- The empty filesystem. -/
def wFsEmpty : FileSys := ⟨fun _ => none⟩

/-- A reference whose explicit filename already carries the `tmp`
extension. -/
def wModelTmp : HuggingFaceModel := ⟨"o/r", "main", "w.tmp"⟩

/-- A two-chunk response with no hash header. -/
def wRespPlain : HttpResponse := ⟨none, none, some 2, [[0], [1]]⟩

/-- A response announcing a hash that the body does not have. -/
def wRespBad : HttpResponse := ⟨some "\"DEAD\"", none, some 2, [[0], [1]]⟩

/-- A registry where two repos list differently named files that both
match the alias `q`. -/
def wListings2 : String → List String :=
  fun r => if r = "o/a" then ["x-q.gguf"] else ["longer-q.gguf"]

/-- A filesystem holding a verified `d/x-q.gguf` only. -/
def wFsQ : FileSys :=
  ⟨fun q => if q = "d/x-q.gguf" then some [7]
    else if q = "d/x-q.gguf.meta.json" then some [1] else none⟩

/-! ## Helper lemmas -/

theorem insertByLen_ne_nil (x : String) (l : List String) :
    insertByLen x l ≠ [] := by
  cases l with
  | nil => simp [insertByLen]
  | cons y ys =>
    by_cases h : y.length < x.length <;> simp [insertByLen, h]

theorem sortByLen_ne_nil {l : List String} (h : l ≠ []) :
    sortByLen l ≠ [] := by
  cases l with
  | nil => exact absurd rfl h
  | cons x xs => exact insertByLen_ne_nil x (sortByLen xs)

theorem sortByLen_eq_nil {l : List String} (h : sortByLen l = []) :
    l = [] := by
  cases l with
  | nil => rfl
  | cons x xs => exact absurd h (insertByLen_ne_nil x (sortByLen xs))

theorem mem_insertByLen {x a : String} :
    ∀ {l : List String}, a ∈ insertByLen x l ↔ a = x ∨ a ∈ l := by
  intro l
  induction l with
  | nil => simp [insertByLen]
  | cons y ys ih =>
    by_cases h : y.length < x.length
    · simp only [insertByLen, h, if_true, List.mem_cons, ih]
      tauto
    · simp only [insertByLen, h, if_false, List.mem_cons]

theorem mem_sortByLen {a : String} :
    ∀ {l : List String}, a ∈ sortByLen l ↔ a ∈ l := by
  intro l
  induction l with
  | nil => simp [sortByLen]
  | cons x xs ih =>
    simp only [sortByLen, mem_insertByLen, ih, List.mem_cons]

theorem headI_mem_of_ne_nil {l : List String} (h : l ≠ []) : l.headI ∈ l := by
  cases l with
  | nil => exact absurd rfl h
  | cons a l => exact List.mem_cons_self a l

theorem headI_insertByLen (x : String) (l : List String) :
    ((insertByLen x l).headI = x ∧
      (l = [] ∨ x.length ≤ l.headI.length)) ∨
    ((insertByLen x l).headI = l.headI ∧ l.headI.length < x.length) := by
  cases l with
  | nil => exact Or.inl ⟨rfl, Or.inl rfl⟩
  | cons y ys =>
    by_cases h : y.length < x.length
    · exact Or.inr ⟨by simp [insertByLen, h], h⟩
    · exact Or.inl ⟨by simp [insertByLen, h], Or.inr (Nat.le_of_not_lt h)⟩

theorem sortByLen_headI_le :
    ∀ {l : List String}, l ≠ [] →
      ∀ d ∈ l, (sortByLen l).headI.length ≤ d.length := by
  intro l
  induction l with
  | nil => intro h; exact absurd rfl h
  | cons x xs ih =>
    intro _ d hd
    have hrepr : sortByLen (x :: xs) = insertByLen x (sortByLen xs) := rfl
    rcases headI_insertByLen x (sortByLen xs) with ⟨he, hrest⟩ | ⟨he, hlt⟩
    · rw [hrepr, he]
      rcases List.mem_cons.mp hd with hdx | hdxs
      · rw [hdx]
      · rcases hrest with hnil | hle
        · exact absurd hdxs (by simp [sortByLen_eq_nil hnil])
        · exact le_trans hle (ih (List.ne_nil_of_mem hdxs) d hdxs)
    · rw [hrepr, he]
      rcases List.mem_cons.mp hd with hdx | hdxs
      · rw [hdx]; exact Nat.le_of_lt hlt
      · exact ih (List.ne_nil_of_mem hdxs) d hdxs

/-! ## Claim theorems -/

/-- C6: For a fixed registry listing and alias, alias resolution keeps
only names containing the alias case-insensitively and ending in
`.gguf`; it errors exactly when that filtered set is empty; a candidate
ending (case-insensitively) in `{alias}.gguf` is preferred, and
otherwise a shortest remaining candidate is returned; and the listing
`{"a-Q4.gguf","a-Q4_K_M.gguf"}` under alias `"Q4_K_M"` resolves to
`"a-Q4_K_M.gguf"`. -/
theorem alias_resolution_deterministic (siblings : List String) (a : String) :
    ((aliasCandidates siblings a = []) ↔
      ∃ e, resolve_hf_alias siblings a = .error e)
    ∧ (∀ c, resolve_hf_alias siblings a = .ok c →
        c ∈ aliasCandidates siblings a)
    ∧ ((∃ d ∈ aliasCandidates siblings a,
          endsWithStr (strLower d) (strLower a ++ ".gguf") = true) →
        ∃ c, resolve_hf_alias siblings a = .ok c ∧
          endsWithStr (strLower c) (strLower a ++ ".gguf") = true)
    ∧ ((aliasCandidates siblings a ≠ []) →
        (∀ d ∈ aliasCandidates siblings a,
          endsWithStr (strLower d) (strLower a ++ ".gguf") = false) →
        ∃ c, resolve_hf_alias siblings a = .ok c ∧
          ∀ d ∈ aliasCandidates siblings a, c.length ≤ d.length)
    ∧ resolve_hf_alias ["a-Q4.gguf", "a-Q4_K_M.gguf"] "Q4_K_M"
        = .ok "a-Q4_K_M.gguf" := by
  have hres : resolve_hf_alias siblings a =
      (if (aliasCandidates siblings a).isEmpty then
        .error ("Could not find a GGUF file containing " ++ a)
      else
        match (aliasCandidates siblings a).find?
            (fun name => endsWithStr (strLower name) (strLower a ++ ".gguf")) with
        | some exact => .ok exact
        | none => .ok ((sortByLen (aliasCandidates siblings a)).headI)) := rfl
  by_cases hc : aliasCandidates siblings a = []
  · refine ⟨⟨fun _ => ⟨_, by rw [hres, hc]; rfl⟩, fun _ => hc⟩,
      ?_, ?_, ?_, by decide⟩
    · intro c hok
      rw [hres, hc] at hok
      exact absurd hok (by simp)
    · intro ⟨d, hd, _⟩
      exact absurd hd (by simp [hc])
    · intro hne _
      exact absurd hc hne
  · have hcne : (aliasCandidates siblings a).isEmpty = false := by
      simpa [List.isEmpty_iff] using hc
    refine ⟨⟨fun h => absurd h hc, ?_⟩, ?_, ?_, ?_, by decide⟩
    · intro ⟨e, he⟩
      rw [hres, hcne] at he
      rcases hf : (aliasCandidates siblings a).find?
          (fun name => endsWithStr (strLower name) (strLower a ++ ".gguf")) with
        _ | exact <;> simp [hf] at he
    · intro c hok
      rw [hres, hcne] at hok
      rcases hf : (aliasCandidates siblings a).find?
          (fun name => endsWithStr (strLower name) (strLower a ++ ".gguf")) with
        _ | exact
      · simp only [hf] at hok
        have : c = (sortByLen (aliasCandidates siblings a)).headI :=
          (by simpa using hok : _ = c).symm
        rw [this]
        exact mem_sortByLen.mp
          (headI_mem_of_ne_nil (sortByLen_ne_nil hc))
      · simp only [hf] at hok
        have : c = exact := (by simpa using hok : _ = c).symm
        rw [this]
        exact List.mem_of_find?_eq_some hf
    · intro ⟨d, hd, hsfx⟩
      rcases hf : (aliasCandidates siblings a).find?
          (fun name => endsWithStr (strLower name) (strLower a ++ ".gguf")) with
        _ | exact
      · have := List.find?_eq_none.mp hf d hd
        simp [hsfx] at this
      · refine ⟨exact, by rw [hres, hcne]; simp [hf], ?_⟩
        simpa using List.find?_some hf
    · intro _ hall
      have hf : (aliasCandidates siblings a).find?
          (fun name => endsWithStr (strLower name) (strLower a ++ ".gguf"))
          = none :=
        List.find?_eq_none.mpr (fun d hd => by simp [hall d hd])
      refine ⟨(sortByLen (aliasCandidates siblings a)).headI,
        by rw [hres, hcne]; simp [hf], ?_⟩
      exact sortByLen_headI_le hc

/-- C6 witness: on the concrete listing from the claim, the suffix rule
produces a matching candidate. -/
theorem alias_resolution_deterministic_witness :
    ∃ c, resolve_hf_alias ["a-Q4.gguf", "a-Q4_K_M.gguf"] "Q4_K_M" = .ok c ∧
      endsWithStr (strLower c) (strLower "Q4_K_M" ++ ".gguf") = true :=
  (alias_resolution_deterministic ["a-Q4.gguf", "a-Q4_K_M.gguf"]
    "Q4_K_M").2.2.1 (by decide)

/-- C10: `parse` fails on every input that is empty or consists solely
of whitespace; no model reference is ever constructed from such input. -/
theorem parse_rejects_blank_input (s : String)
    (h : ∀ c ∈ s.data, rustIsWhitespace c = true) :
    parse s = .error "Empty Hugging Face reference" := by
  have hd : s.data.dropWhile rustIsWhitespace = [] :=
    List.dropWhile_eq_nil_iff.mpr h
  have h1 : (rustTrim s).data = [] := by
    simp [rustTrim, trimPred, hd]
  unfold parse
  rw [h1]
  rfl

/-- C10 witness: the three-character blank string `" \t "`. -/
theorem parse_rejects_blank_input_witness :
    parse " \t " = .error "Empty Hugging Face reference" :=
  parse_rejects_blank_input " \t " (by decide)

/-- C1: the claim requires a context built with non-empty prefix `"a"`
and non-empty suffix `"b"` (hence FIM-formatted) to get the clamped
budget `min 50 200 = 50`; the code instead detects FIM by searching for
the sentinel `<｜fim▁begin｜>`, which `completion_context` never emits
(it emits `<|fim_prefix|>`), so the worker passes the unclamped budget
`200` to the engine. -/
theorem fim_clamp_missed_at_failing_input :
    completion_context "a" "b"
      = "<|fim_prefix|>a<|fim_suffix|>b<|fim_middle|>"
    ∧ isFimContext (completion_context "a" "b") = false
    ∧ chosenMaxTokens (completion_context "a" "b") 200 = 200
    ∧ min 50 200 = 50 := by
  exact ⟨rfl, by decide, by decide, rfl⟩

/-- C7: under text-change triggers every 50 ms for 1000 ms (closer than
the 100 ms debounce, longer than the 500 ms ceiling) starting at time 0,
the scheduler fires no automatic request at all during the stream, and
the one timer still pending would fire at 1100 ms — after the ceiling,
not before it.  `handle_text_change` cancels the debounce source before
`schedule_auto_completion` inspects it, so the streak timestamp is reset
on every trigger and `should_force` compares against the previous
trigger, never against the start of the streak. -/
theorem debounce_ceiling_never_forces :
    runTriggers (triggerTrain 0 50 21) ⟨none, none⟩
      = ([], ⟨some 1000, some 1100⟩)
    ∧ triggerTrain 0 50 21 =
        [0, 50, 100, 150, 200, 250, 300, 350, 400, 450, 500, 550, 600,
         650, 700, 750, 800, 850, 900, 950, 1000]
    ∧ 0 + 500 < 1100 := by
  exact ⟨by decide, by decide, by decide⟩

theorem applyOps_append (fs : FileSys) (l1 l2 : List FsOp) :
    applyOps fs (l1 ++ l2) = applyOps (applyOps fs l1) l2 := by
  simp [applyOps, List.foldl_append]

theorem applyOp_untouched {p : String} {op : FsOp} (fs : FileSys)
    (h : touches op p = false) : (applyOp fs op).files p = fs.files p := by
  cases op with
  | create q =>
    have hq : ¬ q = p := by simpa [touches] using h
    have hne : p ≠ q := fun hh => hq hh.symm
    simp [applyOp, hne]
  | append q bytes =>
    have hq : ¬ q = p := by simpa [touches] using h
    have hne : p ≠ q := fun hh => hq hh.symm
    simp [applyOp, hne]
  | remove q =>
    have hq : ¬ q = p := by simpa [touches] using h
    have hne : p ≠ q := fun hh => hq hh.symm
    simp [applyOp, hne]
  | rename src dst =>
    have hq : ¬ src = p ∧ ¬ dst = p := by
      simpa [touches, Bool.or_eq_false_iff] using h
    have hne1 : p ≠ dst := fun hh => hq.2 hh.symm
    have hne2 : p ≠ src := fun hh => hq.1 hh.symm
    simp [applyOp, hne1, hne2]
  | write q bytes =>
    have hq : ¬ q = p := by simpa [touches] using h
    have hne : p ≠ q := fun hh => hq hh.symm
    simp [applyOp, hne]

theorem applyOps_untouched {p : String} :
    ∀ (l : List FsOp) (fs : FileSys), (∀ op ∈ l, touches op p = false) →
      (applyOps fs l).files p = fs.files p := by
  intro l
  induction l with
  | nil => intro fs _; rfl
  | cons op ops ih =>
    intro fs hall
    have h1 := applyOp_untouched fs (hall op (List.mem_cons_self op ops))
    have hrest : ∀ o ∈ ops, touches o p = false :=
      fun o ho => hall o (List.mem_cons_of_mem op ho)
    calc (applyOps fs (op :: ops)).files p
        = (applyOps (applyOp fs op) ops).files p := rfl
      _ = (applyOp fs op).files p := ih _ hrest
      _ = fs.files p := h1

theorem applyOps_take_untouched {p : String} (l : List FsOp) (fs : FileSys)
    (h : ∀ op ∈ l, touches op p = false) (k : Nat) :
    (applyOps fs (l.take k)).files p = fs.files p :=
  applyOps_untouched _ fs (fun op hop => h op (List.mem_of_mem_take hop))

theorem applyOps_take_append (A B : List FsOp) (k : Nat) (fs : FileSys) :
    applyOps fs ((A ++ B).take k) =
      applyOps (applyOps fs (A.take k)) (B.take (k - A.length)) := by
  rw [List.take_append_eq_append_take, applyOps_append]

theorem append_chunks_content (p : String) :
    ∀ (chunks : List (List Nat)) (fs : FileSys) (acc : List Nat),
      fs.files p = some acc →
      (applyOps fs (chunks.map (FsOp.append p))).files p
        = some (acc ++ chunks.flatten) := by
  intro chunks
  induction chunks with
  | nil =>
    intro fs acc h
    simpa [applyOps] using h
  | cons ch rest ih =>
    intro fs acc h
    have h1 : (applyOp fs (FsOp.append p ch)).files p = some (acc ++ ch) := by
      simp [applyOp, h]
    have h2 := ih (applyOp fs (FsOp.append p ch)) (acc ++ ch) h1
    calc (applyOps fs ((ch :: rest).map (FsOp.append p))).files p
        = (applyOps (applyOp fs (FsOp.append p ch))
            (rest.map (FsOp.append p))).files p := rfl
      _ = some ((acc ++ ch) ++ rest.flatten) := h2
      _ = some (acc ++ (ch :: rest).flatten) := by
          simp [List.append_assoc]

theorem transfer_ops_content (p : String) (chunks : List (List Nat))
    (fs : FileSys) :
    (applyOps fs (FsOp.create p :: chunks.map (FsOp.append p))).files p
      = some chunks.flatten := by
  have h1 : (applyOp fs (FsOp.create p)).files p = some [] := by
    simp [applyOp]
  have h2 := append_chunks_content p chunks (applyOp fs (FsOp.create p)) [] h1
  simpa using h2

theorem transfer_ops_untouched {p q : String} (hpq : q ≠ p)
    (chunks : List (List Nat)) :
    ∀ op ∈ FsOp.create q :: chunks.map (FsOp.append q),
      touches op p = false := by
  intro op hop
  rcases List.mem_cons.mp hop with h | h
  · subst h
    simpa [touches] using hpq
  · obtain ⟨ch, _, rfl⟩ := List.mem_map.mp h
    simpa [touches] using hpq

theorem joinPath_inj {dir a b : String} (h : joinPath dir a = joinPath dir b) :
    a = b := by
  have hd := congrArg String.data h
  simp only [joinPath, String.data_append] at hd
  have h2 : a.data = b.data := by
    have hd2 : (dir.data ++ "/".data) ++ a.data
        = (dir.data ++ "/".data) ++ b.data := by
      simpa [List.append_assoc] using hd
    exact List.append_cancel_left hd2
  cases a
  cases b
  exact congrArg String.mk h2

theorem metadataPath_ne_joinPath (dir fn : String) :
    metadataPath dir fn ≠ joinPath dir fn := by
  intro h
  have h1 : fn ++ ".meta.json" = fn := joinPath_inj h
  have hlen := congrArg String.length h1
  rw [String.length_append] at hlen
  have h10 : (".meta.json" : String).length = 10 := by decide
  rw [h10] at hlen
  omega

theorem clearInflight_frame (tr : CompletionTrigger) (st : HostState) :
    (clearInflight tr st).completion_generation = st.completion_generation
    ∧ (clearInflight tr st).ghost_text = st.ghost_text
    ∧ (clearInflight tr st).status = st.status
    ∧ (clearInflight tr st).toasts = st.toasts := by
  cases tr <;> simp [clearInflight]

theorem applyResult_generation (d : Delivery) (st : HostState) :
    (applyResult d st).completion_generation = st.completion_generation := by
  unfold applyResult
  cases hr : d.result <;> dsimp only <;> (repeat' split) <;> rfl

theorem deliverResult_generation (d : Delivery) (st : HostState) :
    (deliverResult d st).completion_generation = st.completion_generation := by
  unfold deliverResult
  split
  · exact (clearInflight_frame d.trigger st).1
  · exact (applyResult_generation d _).trans (clearInflight_frame d.trigger st).1

theorem deliverResult_stale (d : Delivery) (st : HostState)
    (h : d.generation ≠ st.completion_generation) :
    deliverResult d st = clearInflight d.trigger st := by
  have hg := (clearInflight_frame d.trigger st).1
  simp [deliverResult, hg, h]

/-- C2: results are filtered by generation at delivery time.  The
delivery handler never changes the generation counter; a batch of worker
results all stamped with stale generations leaves the ghost text, the
status label and the toast list untouched (only in-flight flags are
cleared, no error surfaces); and in any interleaving of worker
completions, the ghost text can only change through a delivery whose
stamp equals the counter's current value, so the host only ever observes
the result of the latest generation. -/
theorem generation_filter_discards_stale (st : HostState)
    (ds : List Delivery) :
    (runDeliveries st ds).completion_generation = st.completion_generation
    ∧ ((∀ d ∈ ds, d.generation ≠ st.completion_generation) →
        (runDeliveries st ds).ghost_text = st.ghost_text
        ∧ (runDeliveries st ds).status = st.status
        ∧ (runDeliveries st ds).toasts = st.toasts)
    ∧ ((runDeliveries st ds).ghost_text ≠ st.ghost_text →
        ∃ d ∈ ds, d.generation = st.completion_generation) := by
  induction ds generalizing st with
  | nil => simp [runDeliveries]
  | cons d ds ih =>
    have hrun : runDeliveries st (d :: ds)
        = runDeliveries (deliverResult d st) ds := rfl
    have hgen1 := deliverResult_generation d st
    obtain ⟨ihgen, ihframe, ihghost⟩ := ih (deliverResult d st)
    refine ⟨by rw [hrun, ihgen, hgen1], ?_, ?_⟩
    · intro hall
      have hd := hall d (List.mem_cons_self d ds)
      have hst := deliverResult_stale d st hd
      have hcf := clearInflight_frame d.trigger st
      have hall2 : ∀ x ∈ ds,
          x.generation ≠ (deliverResult d st).completion_generation := by
        intro x hx
        rw [hgen1]
        exact hall x (List.mem_cons_of_mem d hx)
      obtain ⟨hg, hs, ht⟩ := ihframe hall2
      rw [hrun]
      exact ⟨by rw [hg, hst, hcf.2.1], by rw [hs, hst, hcf.2.2.1],
        by rw [ht, hst, hcf.2.2.2]⟩
    · intro hne
      by_cases hd : d.generation = st.completion_generation
      · exact ⟨d, List.mem_cons_self d ds, hd⟩
      · have hst := deliverResult_stale d st hd
        have hcf := clearInflight_frame d.trigger st
        rw [hrun] at hne
        have hgg : (deliverResult d st).ghost_text = st.ghost_text := by
          rw [hst]
          exact hcf.2.1
        have hne2 : (runDeliveries (deliverResult d st) ds).ghost_text
            ≠ (deliverResult d st).ghost_text := by
          rw [hgg]
          exact hne
        obtain ⟨x, hx, hgx⟩ := ihghost hne2
        rw [hgen1] at hgx
        exact ⟨x, List.mem_cons_of_mem d hx, hgx⟩

/-- C2 witness: a host at generation 5 receiving two stale results (an
acceptance and an error) keeps its ghost text, status and toasts. -/
theorem generation_filter_discards_stale_witness :
    (runDeliveries ⟨5, false, true, none, "s", []⟩
        [⟨.automatic, 3, false, .ok "a"⟩,
         ⟨.manual, 4, false, .error "boom"⟩]).ghost_text
      = (⟨5, false, true, none, "s", []⟩ : HostState).ghost_text
    ∧ (runDeliveries ⟨5, false, true, none, "s", []⟩
        [⟨.automatic, 3, false, .ok "a"⟩,
         ⟨.manual, 4, false, .error "boom"⟩]).status
      = (⟨5, false, true, none, "s", []⟩ : HostState).status
    ∧ (runDeliveries ⟨5, false, true, none, "s", []⟩
        [⟨.automatic, 3, false, .ok "a"⟩,
         ⟨.manual, 4, false, .error "boom"⟩]).toasts
      = (⟨5, false, true, none, "s", []⟩ : HostState).toasts :=
  (generation_filter_discards_stale _ _).2.1 (by decide)

/-- C3: `is_downloaded` answers `true` (and `get_path` answers a path)
only when the artifact file exists, its sidecar exists and parses, and
the sidecar's recorded sha256 equals the freshly computed sha256 of the
artifact bytes; an artifact without a valid matching sidecar is treated
as absent. -/
theorem verify_ok_true_elim (env : HashEnv) (fs : FileSys)
    (path metaPath : String)
    (hv : verify_existing_file env fs path metaPath = .ok true) :
    ∃ bytes metaBytes meta,
      fs.files path = some bytes ∧ fs.files metaPath = some metaBytes
      ∧ env.parseMeta metaBytes = some meta
      ∧ meta.sha256 = env.sha bytes := by
  unfold verify_existing_file at hv
  rcases hfp : fs.files path with _ | bytes <;> rw [hfp] at hv
  · simp at hv
  rcases hfm : fs.files metaPath with _ | metaBytes <;> rw [hfm] at hv
  · simp at hv
  have hv2 : (match env.parseMeta metaBytes with
      | none => (Except.error "Invalid metadata json" : Except String Bool)
      | some meta => .ok (env.sha bytes == meta.sha256)) = .ok true := hv
  rcases hpm : env.parseMeta metaBytes with _ | meta <;> rw [hpm] at hv2
  · simp at hv2
  refine ⟨bytes, metaBytes, meta, rfl, rfl, hpm, ?_⟩
  have hbeq : (env.sha bytes == meta.sha256) = true := by
    simpa using hv2
  exact (eq_of_beq hbeq).symm

theorem is_downloaded_requires_verified_sidecar (env : HashEnv)
    (listings : String → List String) (fs : FileSys) (dir : String)
    (m : HuggingFaceModel) :
    (is_downloaded env listings fs dir m = true →
      ∃ resolved bytes metaBytes meta,
        materialize_filename listings m = .ok resolved
        ∧ fs.files (joinPath dir (filenameOf resolved.file)) = some bytes
        ∧ fs.files (metadataPath dir (filenameOf resolved.file))
            = some metaBytes
        ∧ env.parseMeta metaBytes = some meta
        ∧ meta.sha256 = env.sha bytes)
    ∧ (∀ p, get_path env listings fs dir m = some p →
        ∃ resolved bytes metaBytes meta,
          materialize_filename listings m = .ok resolved
          ∧ p = joinPath dir (filenameOf resolved.file)
          ∧ fs.files p = some bytes
          ∧ fs.files (metadataPath dir (filenameOf resolved.file))
              = some metaBytes
          ∧ env.parseMeta metaBytes = some meta
          ∧ meta.sha256 = env.sha bytes) := by
  have key : ∀ path metaPath,
      verify_existing_file env fs path metaPath = .ok true →
      ∃ bytes metaBytes meta,
        fs.files path = some bytes ∧ fs.files metaPath = some metaBytes
        ∧ env.parseMeta metaBytes = some meta
        ∧ meta.sha256 = env.sha bytes :=
    fun path metaPath hv => verify_ok_true_elim env fs path metaPath hv
  constructor
  · intro h
    unfold is_downloaded at h
    rcases hm : materialize_filename listings m with e | resolved <;>
      rw [hm] at h
    · simp at h
    have h2 : (match verify_existing_file env fs
        (joinPath dir (filenameOf resolved.file))
        (metadataPath dir (filenameOf resolved.file)) with
      | .ok true => true
      | _ => false) = true := h
    rcases hv : verify_existing_file env fs
        (joinPath dir (filenameOf resolved.file))
        (metadataPath dir (filenameOf resolved.file)) with e | b <;>
      rw [hv] at h2
    · simp at h2
    rcases b with _ | _
    · simp at h2
    obtain ⟨bytes, metaBytes, meta, h1, hh2, h3, h4⟩ := key _ _ hv
    exact ⟨resolved, bytes, metaBytes, meta, rfl, h1, hh2, h3, h4⟩
  · intro p hp
    unfold get_path at hp
    rcases hm : materialize_filename listings m with e | resolved <;>
      rw [hm] at hp
    · simp at hp
    have hp2 : (match verify_existing_file env fs
        (joinPath dir (filenameOf resolved.file))
        (metadataPath dir (filenameOf resolved.file)) with
      | .ok true => some (joinPath dir (filenameOf resolved.file))
      | _ => none) = some p := hp
    rcases hv : verify_existing_file env fs
        (joinPath dir (filenameOf resolved.file))
        (metadataPath dir (filenameOf resolved.file)) with e | b <;>
      rw [hv] at hp2
    · simp at hp2
    rcases b with _ | _
    · simp at hp2
    obtain ⟨bytes, metaBytes, meta, h1, hh2, h3, h4⟩ := key _ _ hv
    have hpe : p = joinPath dir (filenameOf resolved.file) := by
      simpa using hp2.symm
    exact ⟨resolved, bytes, metaBytes, meta, rfl, hpe, by rw [hpe]; exact h1,
      hh2, h3, h4⟩

/-- C3 witness: the fixture filesystem holds a verified `d/f.gguf`, and
`is_downloaded` indeed demands the verified conjunction there. -/
theorem is_downloaded_requires_verified_sidecar_witness :
    ∃ resolved bytes metaBytes meta,
      materialize_filename wListings wModel = .ok resolved
      ∧ wFs.files (joinPath "d" (filenameOf resolved.file)) = some bytes
      ∧ wFs.files (metadataPath "d" (filenameOf resolved.file))
          = some metaBytes
      ∧ wHashEnv.parseMeta metaBytes = some meta
      ∧ meta.sha256 = wHashEnv.sha bytes :=
  (is_downloaded_requires_verified_sidecar wHashEnv wListings wFs "d"
    wModel).1 (by decide)

/-- C9: `update_config` only replaces the configuration snapshot and
leaves the loaded-model slot intact; while a model sits in the slot,
`ensure_model_loaded` returns immediately without touching state, so
`complete` keeps answering with the previously loaded engine whatever
the new configuration says; only `unload_model` empties the slot. -/
theorem update_config_preserves_loaded_slot (E : EngineEnv) (fs : FileSys)
    (m : LlmManager) (c : LlmSettings) (prompt : String) (n : Nat)
    (L : LoadedModel) (hL : m.loadedModel = some L) :
    (update_config m c).loadedModel = m.loadedModel
    ∧ (unload_model (update_config m c)).loadedModel = none
    ∧ (m.llamacppAvailable = true →
        ensure_model_loaded E fs (update_config m c)
            = .ok (update_config m c, fs)
        ∧ manager_complete E fs (update_config m c) prompt n
            = (match L.completeFn prompt n with
               | .ok text => .ok (text, update_config m c, fs)
               | .error e => .error e)) := by
  refine ⟨rfl, rfl, ?_⟩
  intro hav
  have hsome : (update_config m c).loadedModel.isSome = true := by
    simp [update_config, hL]
  have hens : ensure_model_loaded E fs (update_config m c)
      = .ok (update_config m c, fs) := by
    unfold ensure_model_loaded
    simp [update_config, hav, hL]
  refine ⟨hens, ?_⟩
  unfold manager_complete
  rw [hens]
  simp only [update_config, hL]
  rcases L.completeFn prompt n with e | text <;> rfl

/-- C9 witness: reconfiguring `wManager` (override path, CPU-only) while
`wLoaded` sits in the slot still completes with `wLoaded`. -/
theorem update_config_preserves_loaded_slot_witness :
    ensure_model_loaded wEngineEnv wFs (update_config wManager wSettings2)
        = .ok (update_config wManager wSettings2, wFs)
    ∧ manager_complete wEngineEnv wFs (update_config wManager wSettings2)
        "p" 3 = .ok ("done:p", update_config wManager wSettings2, wFs) := by
  have h := (update_config_preserves_loaded_slot wEngineEnv wFs wManager
    wSettings2 "p" 3 wLoaded rfl).2.2 rfl
  exact ⟨h.1, h.2.trans (by rfl)⟩

theorem download_ops_prefix_invariant (fs0 : FileSys) (out mp tmp : String)
    (hto : tmp ≠ out) (hmo : mp ≠ out)
    (C : List FsOp) (hC : C = [] ∨ C = [FsOp.remove out, FsOp.remove mp])
    (chunks : List (List Nat)) (tailOps : List FsOp)
    (htail : tailOps = [FsOp.remove tmp]
      ∨ ∃ mbytes, tailOps = [FsOp.rename tmp out, FsOp.write mp mbytes])
    (k : Nat) :
    (applyOps fs0 ((C ++ (FsOp.create tmp :: chunks.map (FsOp.append tmp))
        ++ tailOps).take k)).files out = fs0.files out
    ∨ (applyOps fs0 ((C ++ (FsOp.create tmp :: chunks.map (FsOp.append tmp))
        ++ tailOps).take k)).files out = none
    ∨ ((∃ mbytes, tailOps = [FsOp.rename tmp out, FsOp.write mp mbytes])
        ∧ (applyOps fs0 ((C ++ (FsOp.create tmp
            :: chunks.map (FsOp.append tmp)) ++ tailOps).take k)).files out
          = some chunks.flatten) := by
  have houtne : out ≠ mp := fun h => hmo h.symm
  have hsplit : applyOps fs0 ((C ++ (FsOp.create tmp
        :: chunks.map (FsOp.append tmp)) ++ tailOps).take k)
      = applyOps (applyOps (applyOps fs0 (C.take k))
          ((FsOp.create tmp :: chunks.map (FsOp.append tmp)).take
            (k - C.length)))
          (tailOps.take (k - (C ++ (FsOp.create tmp
            :: chunks.map (FsOp.append tmp))).length)) := by
    rw [applyOps_take_append (C ++ (FsOp.create tmp
      :: chunks.map (FsOp.append tmp))) tailOps k fs0,
      applyOps_take_append C (FsOp.create tmp
        :: chunks.map (FsOp.append tmp)) k fs0]
  have hS1 : (applyOps fs0 (C.take k)).files out = fs0.files out
      ∨ (applyOps fs0 (C.take k)).files out = none := by
    rcases hC with rfl | rfl
    · left
      simp [applyOps]
    · rcases k with _ | _ | n
      · left
        simp [applyOps]
      · right
        simp [applyOps, applyOp]
      · right
        simp [applyOps, applyOp, houtne]
  have hS2 : (applyOps (applyOps fs0 (C.take k))
      ((FsOp.create tmp :: chunks.map (FsOp.append tmp)).take
        (k - C.length))).files out
      = (applyOps fs0 (C.take k)).files out :=
    applyOps_take_untouched _ _ (transfer_ops_untouched hto chunks) _
  rcases htail with rfl | ⟨mbytes, rfl⟩
  · have hS3 : (applyOps (applyOps (applyOps fs0 (C.take k))
        ((FsOp.create tmp :: chunks.map (FsOp.append tmp)).take
          (k - C.length)))
        (([FsOp.remove tmp]).take (k - (C ++ (FsOp.create tmp
          :: chunks.map (FsOp.append tmp))).length))).files out
        = (applyOps (applyOps fs0 (C.take k))
            ((FsOp.create tmp :: chunks.map (FsOp.append tmp)).take
              (k - C.length))).files out := by
      apply applyOps_take_untouched
      intro op hop
      rcases List.mem_cons.mp hop with h | h
      · subst h
        simpa [touches] using hto
      · simp at h
    rw [hsplit, hS3, hS2]
    rcases hS1 with h | h
    · exact Or.inl h
    · exact Or.inr (Or.inl h)
  · rcases hk2 : k - (C ++ (FsOp.create tmp
        :: chunks.map (FsOp.append tmp))).length with _ | n
    · rw [hsplit, hk2]
      simp only [List.take_zero]
      have : applyOps (applyOps (applyOps fs0 (C.take k))
          ((FsOp.create tmp :: chunks.map (FsOp.append tmp)).take
            (k - C.length))) [] =
          applyOps (applyOps fs0 (C.take k))
            ((FsOp.create tmp :: chunks.map (FsOp.append tmp)).take
              (k - C.length)) := rfl
      rw [this, hS2]
      rcases hS1 with h | h
      · exact Or.inl h
      · exact Or.inr (Or.inl h)
    · have hlen : (C ++ (FsOp.create tmp
          :: chunks.map (FsOp.append tmp))).length ≤ k := by omega
      have hlenC : C.length ≤ k := by
        rw [List.length_append] at hlen
        omega
      have hlenT : (FsOp.create tmp
          :: chunks.map (FsOp.append tmp)).length ≤ k - C.length := by
        rw [List.length_append] at hlen
        omega
      have hCfull : C.take k = C := List.take_of_length_le hlenC
      have hTfull : (FsOp.create tmp
          :: chunks.map (FsOp.append tmp)).take (k - C.length)
          = FsOp.create tmp :: chunks.map (FsOp.append tmp) :=
        List.take_of_length_le hlenT
      have hXtmp : (applyOps (applyOps fs0 C) (FsOp.create tmp
          :: chunks.map (FsOp.append tmp))).files tmp
          = some chunks.flatten := transfer_ops_content tmp chunks _
      right
      right
      refine ⟨⟨mbytes, rfl⟩, ?_⟩
      rw [hsplit, hk2, hCfull, hTfull]
      rcases n with _ | n2
      · simpa [applyOps, applyOp] using hXtmp
      · simpa [applyOps, applyOp, houtne] using hXtmp

/-- C4 (amended): provided the resolved artifact filename does not itself
carry the `tmp` extension (for such a filename `with_extension("tmp")`
maps the temp path onto the final path), the final artifact path never
holds partially-written content: after any prefix of the download's
filesystem operations it holds its initial content, is absent, or holds
the complete downloaded byte string — the last only produced by the
rename of the fully-written temp file once the hash check passed (no
header, or header equal to the computed hash). -/
theorem final_path_never_partial (env : HashEnv)
    (listings : String → List String) (fs0 : FileSys) (dir : String)
    (m resolved : HuggingFaceModel) (resp : HttpResponse)
    (hm : materialize_filename listings m = .ok resolved)
    (htmp : withExtension (filenameOf resolved.file) "tmp"
      ≠ filenameOf resolved.file) (k : Nat) :
    (applyOps fs0 (((download_with_progress env listings fs0 dir m
        resp).2).take k)).files (joinPath dir (filenameOf resolved.file))
      = fs0.files (joinPath dir (filenameOf resolved.file))
    ∨ (applyOps fs0 (((download_with_progress env listings fs0 dir m
        resp).2).take k)).files (joinPath dir (filenameOf resolved.file))
      = none
    ∨ ((applyOps fs0 (((download_with_progress env listings fs0 dir m
        resp).2).take k)).files (joinPath dir (filenameOf resolved.file))
        = some resp.chunks.flatten
      ∧ (expectedHashOf resp = none
         ∨ expectedHashOf resp = some (env.sha resp.chunks.flatten))) := by
  have hdl : download_with_progress env listings fs0 dir m resp
      = download_resolved env fs0 dir (filenameOf resolved.file) resp := by
    unfold download_with_progress
    rw [hm]
  rw [hdl]
  have hto : joinPath dir (withExtension (filenameOf resolved.file) "tmp")
      ≠ joinPath dir (filenameOf resolved.file) :=
    fun h => htmp (joinPath_inj h)
  have hmo := metadataPath_ne_joinPath dir (filenameOf resolved.file)
  have hmain : ∀ C, (C = [] ∨ C = [FsOp.remove (joinPath dir
        (filenameOf resolved.file)),
        FsOp.remove (metadataPath dir (filenameOf resolved.file))]) →
      ∀ tailOps, (tailOps = [FsOp.remove (joinPath dir
          (withExtension (filenameOf resolved.file) "tmp"))]
        ∨ ∃ mbytes, tailOps = [FsOp.rename (joinPath dir
            (withExtension (filenameOf resolved.file) "tmp"))
            (joinPath dir (filenameOf resolved.file)),
            FsOp.write (metadataPath dir (filenameOf resolved.file))
              mbytes]) →
      (expectedHashOf resp = none
        ∨ expectedHashOf resp = some (env.sha resp.chunks.flatten)
        ∨ tailOps = [FsOp.remove (joinPath dir
            (withExtension (filenameOf resolved.file) "tmp"))]) →
      (download_resolved env fs0 dir (filenameOf resolved.file) resp).2
        = C ++ (FsOp.create (joinPath dir
            (withExtension (filenameOf resolved.file) "tmp"))
            :: resp.chunks.map (FsOp.append (joinPath dir
              (withExtension (filenameOf resolved.file) "tmp"))))
          ++ tailOps →
      (applyOps fs0 (((download_resolved env fs0 dir
          (filenameOf resolved.file) resp).2).take k)).files
          (joinPath dir (filenameOf resolved.file))
        = fs0.files (joinPath dir (filenameOf resolved.file))
      ∨ (applyOps fs0 (((download_resolved env fs0 dir
          (filenameOf resolved.file) resp).2).take k)).files
          (joinPath dir (filenameOf resolved.file))
        = none
      ∨ ((applyOps fs0 (((download_resolved env fs0 dir
          (filenameOf resolved.file) resp).2).take k)).files
          (joinPath dir (filenameOf resolved.file))
          = some resp.chunks.flatten
        ∧ (expectedHashOf resp = none
           ∨ expectedHashOf resp = some (env.sha resp.chunks.flatten))) := by
    intro C hC tailOps htail hhash hops
    rw [hops]
    rcases download_ops_prefix_invariant fs0
        (joinPath dir (filenameOf resolved.file))
        (metadataPath dir (filenameOf resolved.file))
        (joinPath dir (withExtension (filenameOf resolved.file) "tmp"))
        hto hmo C hC resp.chunks tailOps htail k with h | h | ⟨⟨mb, hmb⟩, hval⟩
    · exact Or.inl h
    · exact Or.inr (Or.inl h)
    · refine Or.inr (Or.inr ⟨hval, ?_⟩)
      rcases hhash with h | h | h
      · exact Or.inl h
      · exact Or.inr h
      · rw [h] at hmb
        simp at hmb
  by_cases hs : (fs0.files (joinPath dir (filenameOf resolved.file))).isSome
  · rcases hv : verify_existing_file env fs0
        (joinPath dir (filenameOf resolved.file))
        (metadataPath dir (filenameOf resolved.file)) with e | b
    · rcases hexp : expectedHashOf resp with _ | e2
      · rw [hexp] at hmain
        exact hmain _ (Or.inr rfl) _
          (Or.inr ⟨env.encodeMeta ⟨env.sha resp.chunks.flatten, none⟩, rfl⟩)
          (Or.inl rfl)
          (by simp [download_resolved, hs, hv, hexp])
      · by_cases hne : e2 = env.sha resp.chunks.flatten
        · rw [hexp] at hmain
          exact hmain _ (Or.inr rfl) _
            (Or.inr ⟨env.encodeMeta
              ⟨env.sha resp.chunks.flatten, some e2⟩, rfl⟩)
            (Or.inr (Or.inl (by rw [hne])))
            (by simp [download_resolved, hs, hv, hexp, hne])
        · rw [hexp] at hmain
          exact hmain _ (Or.inr rfl) _ (Or.inl rfl)
            (Or.inr (Or.inr rfl))
            (by simp [download_resolved, hs, hv, hexp, hne])
    · rcases b with _ | _
      · rcases hexp : expectedHashOf resp with _ | e2
        · rw [hexp] at hmain
          exact hmain _ (Or.inr rfl) _
            (Or.inr ⟨env.encodeMeta ⟨env.sha resp.chunks.flatten, none⟩, rfl⟩)
            (Or.inl rfl)
            (by simp [download_resolved, hs, hv, hexp])
        · by_cases hne : e2 = env.sha resp.chunks.flatten
          · rw [hexp] at hmain
            exact hmain _ (Or.inr rfl) _
              (Or.inr ⟨env.encodeMeta
                ⟨env.sha resp.chunks.flatten, some e2⟩, rfl⟩)
              (Or.inr (Or.inl (by rw [hne])))
              (by simp [download_resolved, hs, hv, hexp, hne])
          · rw [hexp] at hmain
            exact hmain _ (Or.inr rfl) _ (Or.inl rfl)
              (Or.inr (Or.inr rfl))
              (by simp [download_resolved, hs, hv, hexp, hne])
      · have hops : (download_resolved env fs0 dir
            (filenameOf resolved.file) resp).2 = [] := by
          simp [download_resolved, hs, hv]
        left
        rw [hops]
        simp [applyOps]
  · rcases hexp : expectedHashOf resp with _ | e2
    · rw [hexp] at hmain
      exact hmain _ (Or.inl rfl) _
        (Or.inr ⟨env.encodeMeta ⟨env.sha resp.chunks.flatten, none⟩, rfl⟩)
        (Or.inl rfl)
        (by simp [download_resolved, hs, hexp])
    · by_cases hne : e2 = env.sha resp.chunks.flatten
      · rw [hexp] at hmain
        exact hmain _ (Or.inl rfl) _
          (Or.inr ⟨env.encodeMeta
            ⟨env.sha resp.chunks.flatten, some e2⟩, rfl⟩)
          (Or.inr (Or.inl (by rw [hne])))
          (by simp [download_resolved, hs, hexp, hne])
      · rw [hexp] at hmain
        exact hmain _ (Or.inl rfl) _ (Or.inl rfl)
          (Or.inr (Or.inr rfl))
          (by simp [download_resolved, hs, hexp, hne])

/-- C4 counterexample: an artifact whose filename already has the `tmp`
extension (`w.tmp`) makes `with_extension("tmp")` map the temp path onto
the final path, so interrupting the transfer after two operations leaves
the final artifact path `m/w.tmp` holding `[0]` — not absent, not its
initial content, and not the complete two-chunk download `[0, 1]`. -/
theorem tmp_extension_breaks_atomicity :
    joinPath "m" (filenameOf wModelTmp.file) = "m/w.tmp"
    ∧ materialize_filename wListings wModelTmp = .ok wModelTmp
    ∧ wFsEmpty.files "m/w.tmp" = none
    ∧ (applyOps wFsEmpty (((download_with_progress wHashEnv wListings
        wFsEmpty "m" wModelTmp wRespPlain).2).take 2)).files "m/w.tmp"
      = some [0]
    ∧ wRespPlain.chunks.flatten = [0, 1]
    ∧ some ([0] : List Nat) ≠ some ([0, 1] : List Nat) := by
  refine ⟨by decide, by decide, by decide, by decide, by decide, by decide⟩

/-- C4 witness: for the well-named artifact `f.gguf` interrupted after
two operations, the final path is still absent. -/
theorem final_path_never_partial_witness :
    (applyOps wFsEmpty (((download_with_progress wHashEnv wListings
        wFsEmpty "m" wModel wRespPlain).2).take 2)).files
        (joinPath "m" (filenameOf wModel.file))
      = wFsEmpty.files (joinPath "m" (filenameOf wModel.file))
    ∨ (applyOps wFsEmpty (((download_with_progress wHashEnv wListings
        wFsEmpty "m" wModel wRespPlain).2).take 2)).files
        (joinPath "m" (filenameOf wModel.file))
      = none
    ∨ ((applyOps wFsEmpty (((download_with_progress wHashEnv wListings
        wFsEmpty "m" wModel wRespPlain).2).take 2)).files
        (joinPath "m" (filenameOf wModel.file))
        = some wRespPlain.chunks.flatten
      ∧ (expectedHashOf wRespPlain = none
         ∨ expectedHashOf wRespPlain
            = some (wHashEnv.sha wRespPlain.chunks.flatten))) :=
  final_path_never_partial wHashEnv wListings wFsEmpty "m" wModel wModel
    wRespPlain (by decide) (by decide) 2

theorem mismatch_final_state (fs0 : FileSys) (out mp tmp : String)
    (C : List FsOp) (hC : C = [] ∨ C = [FsOp.remove out, FsOp.remove mp])
    (hCnil : C = [] → fs0.files out = none)
    (chunks : List (List Nat)) :
    (applyOps fs0 (C ++ (FsOp.create tmp :: chunks.map (FsOp.append tmp))
        ++ [FsOp.remove tmp])).files tmp = none
    ∧ (applyOps fs0 (C ++ (FsOp.create tmp :: chunks.map (FsOp.append tmp))
        ++ [FsOp.remove tmp])).files out = none := by
  have hfin : applyOps fs0 (C ++ (FsOp.create tmp
        :: chunks.map (FsOp.append tmp)) ++ [FsOp.remove tmp])
      = applyOp (applyOps fs0 (C ++ (FsOp.create tmp
          :: chunks.map (FsOp.append tmp)))) (FsOp.remove tmp) := by
    rw [applyOps_append]
    rfl
  constructor
  · rw [hfin]
    simp [applyOp]
  · rw [hfin]
    by_cases hot : out = tmp
    · simp [applyOp, hot]
    · have h1 : (applyOp (applyOps fs0 (C ++ (FsOp.create tmp
          :: chunks.map (FsOp.append tmp)))) (FsOp.remove tmp)).files out
          = (applyOps fs0 (C ++ (FsOp.create tmp
              :: chunks.map (FsOp.append tmp)))).files out := by
        simp [applyOp, hot]
      rw [h1, applyOps_append]
      have h2 : (applyOps (applyOps fs0 C) (FsOp.create tmp
          :: chunks.map (FsOp.append tmp))).files out
          = (applyOps fs0 C).files out :=
        applyOps_untouched _ _
          (transfer_ops_untouched (fun hh => hot hh.symm) chunks)
      rw [h2]
      rcases hC with rfl | rfl
      · simpa [applyOps] using hCnil rfl
      · show (applyOp (applyOp fs0 (FsOp.remove out))
            (FsOp.remove mp)).files out = none
        by_cases homp : out = mp <;> simp [applyOp, homp]

theorem mismatch_ops_no_write (out mp tmp : String) (C : List FsOp)
    (hC : C = [] ∨ C = [FsOp.remove out, FsOp.remove mp])
    (chunks : List (List Nat)) (q : String) (bytes : List Nat) :
    FsOp.write q bytes ∉ C ++ (FsOp.create tmp
      :: chunks.map (FsOp.append tmp)) ++ [FsOp.remove tmp] := by
  intro hmem
  rcases hC with rfl | rfl <;>
    simp [List.mem_append, List.mem_map] at hmem

theorem is_downloaded_false_of_unverified (env : HashEnv)
    (listings : String → List String) (fs : FileSys) (dir : String)
    (m resolved : HuggingFaceModel)
    (hm : materialize_filename listings m = .ok resolved)
    (hv : ∀ b, verify_existing_file env fs
        (joinPath dir (filenameOf resolved.file))
        (metadataPath dir (filenameOf resolved.file)) = .ok b →
        b = false) :
    is_downloaded env listings fs dir m = false
    ∧ get_path env listings fs dir m = none := by
  constructor
  · unfold is_downloaded
    rw [hm]
    show (match verify_existing_file env fs
        (joinPath dir (filenameOf resolved.file))
        (metadataPath dir (filenameOf resolved.file)) with
      | .ok true => true
      | _ => false) = false
    rcases hvv : verify_existing_file env fs
        (joinPath dir (filenameOf resolved.file))
        (metadataPath dir (filenameOf resolved.file)) with er | b
    · rfl
    · have hb := hv b hvv
      subst hb
      rfl
  · unfold get_path
    rw [hm]
    show (match verify_existing_file env fs
        (joinPath dir (filenameOf resolved.file))
        (metadataPath dir (filenameOf resolved.file)) with
      | .ok true => some (joinPath dir (filenameOf resolved.file))
      | _ => none) = none
    rcases hvv : verify_existing_file env fs
        (joinPath dir (filenameOf resolved.file))
        (metadataPath dir (filenameOf resolved.file)) with er | b
    · rfl
    · have hb := hv b hvv
      subst hb
      rfl

theorem is_downloaded_false_of_absent (env : HashEnv)
    (listings : String → List String) (fs : FileSys) (dir : String)
    (m resolved : HuggingFaceModel)
    (hm : materialize_filename listings m = .ok resolved)
    (habs : fs.files (joinPath dir (filenameOf resolved.file)) = none) :
    is_downloaded env listings fs dir m = false
    ∧ get_path env listings fs dir m = none := by
  apply is_downloaded_false_of_unverified env listings fs dir m resolved hm
  intro b hb
  unfold verify_existing_file at hb
  rw [habs] at hb
  have hb2 : (Except.ok false : Except String Bool) = .ok b := hb
  cases hb2
  rfl

/-- C5: when the server supplied an expected-hash header that differs
from the freshly computed hash of the downloaded bytes (and the existing
file did not already verify, so a transfer actually happens),
`download_with_progress` fails, the temp file is deleted, no sidecar
metadata is ever written, and the verified-present cache state of the
artifact (`is_downloaded` / `get_path`) is unchanged; when the server
supplied no hash header, the hash comparison is skipped and the download
succeeds. -/
theorem hash_mismatch_fatal_and_missing_header_skips (env : HashEnv)
    (listings : String → List String) (fs0 : FileSys) (dir : String)
    (m resolved : HuggingFaceModel) (resp : HttpResponse)
    (hm : materialize_filename listings m = .ok resolved) :
    (∀ e, expectedHashOf resp = some e →
      e ≠ env.sha resp.chunks.flatten →
      ¬((fs0.files (joinPath dir (filenameOf resolved.file))).isSome = true
        ∧ verify_existing_file env fs0
            (joinPath dir (filenameOf resolved.file))
            (metadataPath dir (filenameOf resolved.file)) = .ok true) →
      (∃ msg, (download_with_progress env listings fs0 dir m resp).1
          = .error msg)
      ∧ (applyOps fs0 (download_with_progress env listings fs0 dir m
          resp).2).files
          (joinPath dir (withExtension (filenameOf resolved.file) "tmp"))
        = none
      ∧ (∀ q bytes, FsOp.write q bytes
          ∉ (download_with_progress env listings fs0 dir m resp).2)
      ∧ is_downloaded env listings (applyOps fs0
          (download_with_progress env listings fs0 dir m resp).2) dir m
        = is_downloaded env listings fs0 dir m
      ∧ get_path env listings (applyOps fs0
          (download_with_progress env listings fs0 dir m resp).2) dir m
        = get_path env listings fs0 dir m)
    ∧ (expectedHashOf resp = none →
        ∃ p, (download_with_progress env listings fs0 dir m resp).1
          = .ok p) := by
  have hdl : download_with_progress env listings fs0 dir m resp
      = download_resolved env fs0 dir (filenameOf resolved.file) resp := by
    unfold download_with_progress
    rw [hm]
  constructor
  · intro e hexp hne hnotearly
    have hvfalse : ∀ b, verify_existing_file env fs0
        (joinPath dir (filenameOf resolved.file))
        (metadataPath dir (filenameOf resolved.file)) = .ok b →
        b = false := by
      intro b hb
      rcases b with _ | _
      · rfl
      · obtain ⟨bytes, _, _, hsome, _⟩ := verify_ok_true_elim env fs0 _ _ hb
        exact absurd ⟨by simp [hsome], hb⟩ hnotearly
    have hinit := is_downloaded_false_of_unverified env listings fs0 dir m
      resolved hm hvfalse
    have key : ∀ C : List FsOp,
        (C = [] ∨ C = [FsOp.remove (joinPath dir (filenameOf resolved.file)),
          FsOp.remove (metadataPath dir (filenameOf resolved.file))]) →
        (C = [] → fs0.files (joinPath dir (filenameOf resolved.file))
          = none) →
        ((download_resolved env fs0 dir (filenameOf resolved.file) resp).1
          = .error ("Hash mismatch: expected " ++ e ++ ", got "
            ++ env.sha resp.chunks.flatten)) →
        ((download_resolved env fs0 dir (filenameOf resolved.file) resp).2
          = C ++ (FsOp.create (joinPath dir (withExtension
              (filenameOf resolved.file) "tmp"))
              :: resp.chunks.map (FsOp.append (joinPath dir (withExtension
                (filenameOf resolved.file) "tmp"))))
            ++ [FsOp.remove (joinPath dir (withExtension
              (filenameOf resolved.file) "tmp"))]) →
        (∃ msg, (download_with_progress env listings fs0 dir m resp).1
            = .error msg)
        ∧ (applyOps fs0 (download_with_progress env listings fs0 dir m
            resp).2).files
            (joinPath dir (withExtension (filenameOf resolved.file) "tmp"))
          = none
        ∧ (∀ q bytes, FsOp.write q bytes
            ∉ (download_with_progress env listings fs0 dir m resp).2)
        ∧ is_downloaded env listings (applyOps fs0
            (download_with_progress env listings fs0 dir m resp).2) dir m
          = is_downloaded env listings fs0 dir m
        ∧ get_path env listings (applyOps fs0
            (download_with_progress env listings fs0 dir m resp).2) dir m
          = get_path env listings fs0 dir m := by
      intro C hC hCnil hres hops
      obtain ⟨htmpnone, houtnone⟩ := mismatch_final_state fs0
        (joinPath dir (filenameOf resolved.file))
        (metadataPath dir (filenameOf resolved.file))
        (joinPath dir (withExtension (filenameOf resolved.file) "tmp"))
        C hC hCnil resp.chunks
      have hfinal := is_downloaded_false_of_absent env listings
        (applyOps fs0 (download_with_progress env listings fs0 dir m
          resp).2) dir m resolved hm
        (by rw [hdl, hops]; exact houtnone)
      refine ⟨⟨_, by rw [hdl, hres]⟩, ?_, ?_, ?_, ?_⟩
      · rw [hdl, hops]
        exact htmpnone
      · intro q bytes hmem
        rw [hdl, hops] at hmem
        exact mismatch_ops_no_write _ _ _ C hC resp.chunks q bytes hmem
      · rw [hfinal.1, hinit.1]
      · rw [hfinal.2, hinit.2]
    by_cases hs : (fs0.files
        (joinPath dir (filenameOf resolved.file))).isSome
    · rcases hv : verify_existing_file env fs0
          (joinPath dir (filenameOf resolved.file))
          (metadataPath dir (filenameOf resolved.file)) with er | b
      · exact key _ (Or.inr rfl) (fun h => absurd h (by simp))
          (by simp [download_resolved, hs, hv, hexp, hne])
          (by simp [download_resolved, hs, hv, hexp, hne])
      · rcases b with _ | _
        · exact key _ (Or.inr rfl) (fun h => absurd h (by simp))
            (by simp [download_resolved, hs, hv, hexp, hne])
            (by simp [download_resolved, hs, hv, hexp, hne])
        · exact absurd ⟨hs, hv⟩ hnotearly
    · have habs : fs0.files (joinPath dir (filenameOf resolved.file))
          = none := by
        rcases hoo : fs0.files (joinPath dir (filenameOf resolved.file))
          with _ | v
        · rfl
        · rw [hoo] at hs
          simp at hs
      exact key _ (Or.inl rfl) (fun _ => habs)
        (by simp [download_resolved, hs, hexp, hne])
        (by simp [download_resolved, hs, hexp, hne])
  · intro hexp
    rw [hdl]
    by_cases hs : (fs0.files
        (joinPath dir (filenameOf resolved.file))).isSome
    · rcases hv : verify_existing_file env fs0
          (joinPath dir (filenameOf resolved.file))
          (metadataPath dir (filenameOf resolved.file)) with er | b
      · exact ⟨joinPath dir (filenameOf resolved.file),
          by simp [download_resolved, hs, hv, hexp]⟩
      · rcases b with _ | _
        · exact ⟨joinPath dir (filenameOf resolved.file),
            by simp [download_resolved, hs, hv, hexp]⟩
        · exact ⟨joinPath dir (filenameOf resolved.file),
            by simp [download_resolved, hs, hv]⟩
    · exact ⟨joinPath dir (filenameOf resolved.file),
        by simp [download_resolved, hs, hexp]⟩

/-- C5 witness: a mismatching `x-linked-etag` of `"DEAD"` against body
hash `h2` fails the download, deletes the temp file, writes no sidecar
and leaves the cache state unchanged. -/
theorem hash_mismatch_fatal_and_missing_header_skips_witness :
    (∃ msg, (download_with_progress wHashEnv wListings wFsEmpty "m" wModel
        wRespBad).1 = .error msg)
    ∧ (applyOps wFsEmpty (download_with_progress wHashEnv wListings
        wFsEmpty "m" wModel wRespBad).2).files
        (joinPath "m" (withExtension (filenameOf wModel.file) "tmp")) = none
    ∧ (∀ q bytes, FsOp.write q bytes
        ∉ (download_with_progress wHashEnv wListings wFsEmpty "m" wModel
          wRespBad).2)
    ∧ is_downloaded wHashEnv wListings (applyOps wFsEmpty
        (download_with_progress wHashEnv wListings wFsEmpty "m" wModel
          wRespBad).2) "m" wModel
      = is_downloaded wHashEnv wListings wFsEmpty "m" wModel
    ∧ get_path wHashEnv wListings (applyOps wFsEmpty
        (download_with_progress wHashEnv wListings wFsEmpty "m" wModel
          wRespBad).2) "m" wModel
      = get_path wHashEnv wListings wFsEmpty "m" wModel :=
  (hash_mismatch_fatal_and_missing_header_skips wHashEnv wListings wFsEmpty
    "m" wModel wModel wRespBad (by decide)).1 "dead" (by decide) (by decide)
    (by decide)

/-- C8 counterexample: two references share the final segment `q` of
their `file` fields, but `q` is an alias, and alias resolution consults
the repository listing: under `wListings2` the repos `o/a` and `o/b`
resolve `q` to differently named files, so the two references use
different artifact paths and `is_downloaded` disagrees between them even
though one of them is verified-present. -/
theorem shared_basename_alias_counterexample :
    filenameOf (HuggingFaceModel.mk "o/a" "main" "q").file
      = filenameOf (HuggingFaceModel.mk "o/b" "main" "q").file
    ∧ is_downloaded wHashEnv wListings2 wFsQ "d"
        (HuggingFaceModel.mk "o/a" "main" "q") = true
    ∧ is_downloaded wHashEnv wListings2 wFsQ "d"
        (HuggingFaceModel.mk "o/b" "main" "q") = false
    ∧ get_path wHashEnv wListings2 wFsQ "d"
        (HuggingFaceModel.mk "o/a" "main" "q") = some "d/x-q.gguf"
    ∧ get_path wHashEnv wListings2 wFsQ "d"
        (HuggingFaceModel.mk "o/b" "main" "q") = none := by
  refine ⟨by decide, by decide, by decide, by decide, by decide⟩

/-- C8 (amended): for two references whose `file` fields are concrete
(contain a `.` or a `/`, so no alias resolution is needed) and share the
same final `/`-separated segment, `download_with_progress`,
`is_downloaded` and `get_path` behave identically — they key purely on
the models directory joined with that basename, never consulting the
repository or revision. -/
theorem shared_basename_same_paths (env : HashEnv)
    (listings : String → List String) (fs : FileSys) (dir : String)
    (m1 m2 : HuggingFaceModel)
    (h1 : needsFilenameResolution m1.file = false)
    (h2 : needsFilenameResolution m2.file = false)
    (hseg : filenameOf m1.file = filenameOf m2.file) :
    is_downloaded env listings fs dir m1
      = is_downloaded env listings fs dir m2
    ∧ get_path env listings fs dir m1 = get_path env listings fs dir m2
    ∧ ∀ resp, download_with_progress env listings fs dir m1 resp
        = download_with_progress env listings fs dir m2 resp := by
  have hm1 : materialize_filename listings m1 = .ok m1 := by
    simp [materialize_filename, h1]
  have hm2 : materialize_filename listings m2 = .ok m2 := by
    simp [materialize_filename, h2]
  refine ⟨?_, ?_, ?_⟩
  · unfold is_downloaded
    rw [hm1, hm2]
    show (match verify_existing_file env fs
        (joinPath dir (filenameOf m1.file))
        (metadataPath dir (filenameOf m1.file)) with
      | .ok true => true
      | _ => false)
      = (match verify_existing_file env fs
          (joinPath dir (filenameOf m2.file))
          (metadataPath dir (filenameOf m2.file)) with
        | .ok true => true
        | _ => false)
    rw [hseg]
  · unfold get_path
    rw [hm1, hm2]
    show (match verify_existing_file env fs
        (joinPath dir (filenameOf m1.file))
        (metadataPath dir (filenameOf m1.file)) with
      | .ok true => some (joinPath dir (filenameOf m1.file))
      | _ => none)
      = (match verify_existing_file env fs
          (joinPath dir (filenameOf m2.file))
          (metadataPath dir (filenameOf m2.file)) with
        | .ok true => some (joinPath dir (filenameOf m2.file))
        | _ => none)
    rw [hseg]
  · intro resp
    unfold download_with_progress
    rw [hm1, hm2]
    show download_resolved env fs dir (filenameOf m1.file) resp
      = download_resolved env fs dir (filenameOf m2.file) resp
    rw [hseg]

/-- C8 witness: `o/a@main:sub/f.gguf` and `o/b@rev:f.gguf` share the
basename `f.gguf` and agree on `is_downloaded` and `get_path`. -/
theorem shared_basename_same_paths_witness :
    is_downloaded wHashEnv wListings wFs "d"
        (HuggingFaceModel.mk "o/a" "main" "sub/f.gguf")
      = is_downloaded wHashEnv wListings wFs "d"
          (HuggingFaceModel.mk "o/b" "rev" "f.gguf")
    ∧ get_path wHashEnv wListings wFs "d"
        (HuggingFaceModel.mk "o/a" "main" "sub/f.gguf")
      = get_path wHashEnv wListings wFs "d"
          (HuggingFaceModel.mk "o/b" "rev" "f.gguf") := by
  have h := shared_basename_same_paths wHashEnv wListings wFs "d"
    (HuggingFaceModel.mk "o/a" "main" "sub/f.gguf")
    (HuggingFaceModel.mk "o/b" "rev" "f.gguf")
    (by decide) (by decide) (by decide)
  exact ⟨h.1, h.2.1⟩

end Ghostpad
